import Mathlib

/-!
Shallow embedding of `src/private/push_pop.rs` from the `modular-bitfield`
repository: the `PopBuffer`/`PushBuffer` bit accumulators.

Fixed-width machine integers are modelled by their two's-complement bit
pattern, a natural number below `2 ^ w` where `w` is the bit width.  A
signed value `v : iN` corresponds to the pattern `v` itself when
`0 ≤ v` and to `v + 2 ^ w` when `v < 0`.  All Rust bit operations are
translated on these patterns with explicit `% 2 ^ w` truncation where the
machine semantics truncates.
-/

namespace PushPop

/-- Rust `wrapping_shl` on a `w`-bit integer: the shift count is reduced
modulo the bit width, and the result is truncated to `w` bits (which models
discarding the bits shifted out of the top). -/
def wrapping_shl (w x a : Nat) : Nat :=
  (x <<< (a % w)) % 2 ^ w

/-- Rust `wrapping_sub` on a `w`-bit integer (two's-complement pattern). -/
def wrapping_sub (w x y : Nat) : Nat :=
  (x + (2 ^ w - y % 2 ^ w)) % 2 ^ w

/-- Two's-complement arithmetic right shift of a `w`-bit pattern `x` by
`a < w` places: the vacated high bits are filled with copies of the sign
bit (bit `w - 1`). -/
def arith_shr (w x a : Nat) : Nat :=
  if x < 2 ^ (w - 1) then x >>> a
  else (x >>> a) + (2 ^ a - 1) * 2 ^ (w - a)

/-- Rust `checked_shr` on a `w`-bit integer: `none` when the shift count
reaches the bit width, otherwise the shift — logical for unsigned types,
arithmetic (sign-extending) for signed ones, selected by `s`. -/
def checked_shr (w : Nat) (s : Bool) (x a : Nat) : Option Nat :=
  if a < w then some (if s then arith_shr w x a else x >>> a) else none

/-- Embedding of `<PopBuffer<u8> as PopBits>::pop_bits`: the mask is built
as `(0x01_u16.wrapping_shl(amount)).wrapping_sub(1) as u8`, the returned
byte is `bytes & mask`, and the buffer becomes
`bytes.checked_shr(amount).unwrap_or(0)` (logical shift on `u8`). -/
def popBitsU8 (bytes amount : Nat) : Nat × Nat :=
  let res := bytes &&& (wrapping_sub 16 (wrapping_shl 16 1 amount) 1 % 2 ^ 8)
  (res, (checked_shr 8 false bytes amount).getD 0)

/-- Embedding of `<PopBuffer<i8> as PopBits>::pop_bits`: as for `u8` but the
mask is built in `i16` and truncated to `i8`, the result is cast `as u8`,
and `checked_shr` on `i8` is an arithmetic (sign-extending) shift. -/
def popBitsI8 (bytes amount : Nat) : Nat × Nat :=
  let res := (bytes &&& (wrapping_sub 16 (wrapping_shl 16 1 amount) 1 % 2 ^ 8)) % 2 ^ 8
  (res, (checked_shr 8 true bytes amount).getD 0)

/-- Embedding of the `impl_pop_bits!` macro body, instantiated at
`u16/u32/u64/u128` (`s = false`) and `i16/i32/i64/i128` (`s = true`) with
`w` the bit width: `bitmask = 0xFF >> (8 - amount)`, the returned byte is
`(bytes & bitmask) as u8`, the buffer is `checked_shr`-ed with fallback 0
and then its top `amount` bits are cleared with
`!(((1 << amount) - 1) << (w - amount))`. -/
def popBitsWide (w : Nat) (s : Bool) (bytes amount : Nat) : Nat × Nat :=
  let bitmask := 255 >>> (8 - amount)
  let res := (bytes &&& bitmask) % 2 ^ 8
  let b1 := (checked_shr w s bytes amount).getD 0
  let ones_block := (1 <<< amount) - 1
  let m := (ones_block <<< (w - amount)) % 2 ^ w
  (res, b1 &&& (2 ^ w - 1 - m))

/-- Dispatcher matching the source's choice of implementation per type: the
hand-written impls for the 8-bit buffers, the `impl_pop_bits!` macro for
the 16-bit and wider ones.  Returns the popped byte and the new buffer. -/
def popBits (w : Nat) (s : Bool) (bytes amount : Nat) : Nat × Nat :=
  if w = 8 then (if s then popBitsI8 bytes amount else popBitsU8 bytes amount)
  else popBitsWide w s bytes amount

/-- Embedding of the `impl_push_bits!` macro body (identical for all ten
types, `w` the bit width): `bitmask = 0xFF >> (8 - amount)` and
`bytes = bytes.wrapping_shl(amount) | ((bits & bitmask) as T)`. -/
def pushBits (w bytes amount bits : Nat) : Nat :=
  let bitmask := 255 >>> (8 - amount)
  wrapping_shl w bytes amount ||| (bits &&& bitmask)

/-- Rust `count_ones`, via a fuel-driven binary expansion so that it
reduces definitionally on concrete inputs. -/
def countOnesAux : Nat → Nat → Nat
  | 0, _ => 0
  | fuel + 1, n => if n = 0 then 0 else n % 2 + countOnesAux fuel (n / 2)

/-- Number of set bits of a bit pattern (Rust `count_ones`). -/
def count_ones (n : Nat) : Nat := countOnesAux n n

/-- `PushBuffer<T>` for a `w`-bit `T`, holding its single `bytes` field as
a bit pattern. -/
structure PushBuffer (w : Nat) where
  bytes : Nat

/-- `<PushBuffer<T> as Default>::default()`: the all-zero buffer. -/
def PushBuffer.default (w : Nat) : PushBuffer w := ⟨0⟩

/-- `PushBuffer::push_bits` from `impl_push_bits!`. -/
def PushBuffer.push_bits {w : Nat} (b : PushBuffer w) (amount bits : Nat) :
    PushBuffer w :=
  ⟨pushBits w b.bytes amount bits⟩

/-- `PushBuffer::into_bytes`: returns the underlying bytes. -/
def PushBuffer.into_bytes {w : Nat} (b : PushBuffer w) : Nat := b.bytes

/-- `PopBuffer<T>` for a `w`-bit `T` of signedness `s`. -/
structure PopBuffer (w : Nat) (s : Bool) where
  bytes : Nat

/-- `PopBuffer::from_bytes`: wraps the given raw value. -/
def PopBuffer.from_bytes (w : Nat) (s : Bool) (bytes : Nat) : PopBuffer w s :=
  ⟨bytes⟩

/-- `PopBuffer::pop_bits`, dispatching to the per-type implementation. -/
def PopBuffer.pop_bits {w : Nat} {s : Bool} (b : PopBuffer w s) (amount : Nat) :
    Nat × PopBuffer w s :=
  let r := popBits w s b.bytes amount
  (r.1, ⟨r.2⟩)

/-- Pushing a list of `(amount, bits)` chunks in order, first chunk first
(so the first chunk ends up most significant). -/
def pushSeq {w : Nat} (b : PushBuffer w) : List (Nat × Nat) → PushBuffer w
  | [] => b
  | (a, bits) :: rest => pushSeq (b.push_bits a bits) rest

/-- Popping a list of amounts in order and concatenating the returned
groups, the most recently popped group most significant: the first popped
group lands in the low bits. -/
def popConcat {w : Nat} {s : Bool} (b : PopBuffer w s) : List Nat → Nat
  | [] => 0
  | a :: rest => (b.pop_bits a).1 + 2 ^ a * popConcat (b.pop_bits a).2 rest

/-- Total number of bits in a chunk list. -/
def sumAmounts : List (Nat × Nat) → Nat
  | [] => 0
  | (a, _) :: rest => a + sumAmounts rest

/-- The integer value of a bit sequence given as chunks, first chunk most
significant. -/
def chunksVal : List (Nat × Nat) → Nat
  | [] => 0
  | (_, bits) :: rest => bits * 2 ^ sumAmounts rest + chunksVal rest

/-!  Arithmetic facts about the embedded primitives. -/

theorem mask_eq {a : Nat} (h1 : 1 ≤ a) (h2 : a ≤ 8) :
    (255 : Nat) >>> (8 - a) = 2 ^ a - 1 := by
  interval_cases a <;> decide

theorem mask16_eq {a : Nat} (h1 : 1 ≤ a) (h2 : a ≤ 8) :
    wrapping_sub 16 (wrapping_shl 16 1 a) 1 % 2 ^ 8 = 2 ^ a - 1 := by
  interval_cases a <;> decide

theorem pow_sub_mul_pow (w a : Nat) (h : a ≤ w) :
    2 ^ (w - a) * 2 ^ a = 2 ^ w := by
  rw [← pow_add]
  congr 1
  omega

theorem shiftRight_lt_of_lt {w x a : Nat} (ha : a ≤ w) (hx : x < 2 ^ w) :
    x >>> a < 2 ^ (w - a) := by
  rw [Nat.shiftRight_eq_div_pow, Nat.div_lt_iff_lt_mul (Nat.two_pow_pos a)]
  calc x < 2 ^ w := hx
    _ = 2 ^ (w - a) * 2 ^ a := (pow_sub_mul_pow w a ha).symm

theorem arith_shr_lt {w x a : Nat} (ha : a ≤ w) (hx : x < 2 ^ w) :
    arith_shr w x a < 2 ^ w := by
  unfold arith_shr
  split
  · exact lt_of_le_of_lt (by rw [Nat.shiftRight_eq_div_pow]; exact Nat.div_le_self _ _) hx
  · have h1 : x >>> a < 2 ^ (w - a) := shiftRight_lt_of_lt ha hx
    have h2 : 2 ^ (w - a) * 2 ^ a = 2 ^ w := pow_sub_mul_pow w a ha
    have h3 : 0 < 2 ^ (w - a) := Nat.two_pow_pos _
    have h4 : 0 < 2 ^ a := Nat.two_pow_pos a
    calc x >>> a + (2 ^ a - 1) * 2 ^ (w - a)
        < 2 ^ (w - a) + (2 ^ a - 1) * 2 ^ (w - a) := by omega
      _ = 2 ^ a * 2 ^ (w - a) := by
          have h6 : 2 ^ (w - a) ≤ 2 ^ a * 2 ^ (w - a) := Nat.le_mul_of_pos_left _ h4
          rw [Nat.sub_mul, one_mul]
          omega
      _ = 2 ^ w := by rw [mul_comm]; exact pow_sub_mul_pow w a ha

theorem arith_shr_mod {w x a : Nat} :
    arith_shr w x a % 2 ^ (w - a) = (x >>> a) % 2 ^ (w - a) := by
  unfold arith_shr
  split
  · rfl
  · exact Nat.add_mul_mod_self_right _ _ _

theorem not_mask_eq {w a : Nat} (h : a ≤ w) :
    2 ^ w - 1 - ((1 <<< a - 1) <<< (w - a) % 2 ^ w) = 2 ^ (w - a) - 1 := by
  have h1 : (1 <<< a : Nat) = 2 ^ a := by rw [Nat.shiftLeft_eq, one_mul]
  have h2 : ((2 ^ a - 1) <<< (w - a) : Nat) = 2 ^ w - 2 ^ (w - a) := by
    rw [Nat.shiftLeft_eq, Nat.sub_mul, one_mul, mul_comm, pow_sub_mul_pow w a h]
  have h3 : 2 ^ (w - a) ≤ 2 ^ w := Nat.pow_le_pow_right (by norm_num) (by omega)
  have h4 : 0 < 2 ^ (w - a) := Nat.two_pow_pos _
  have h5 : 0 < 2 ^ w := Nat.two_pow_pos _
  rw [h1, h2, Nat.mod_eq_of_lt (by omega)]
  omega

/-!  The popped byte is the low `amount` bits of the buffer, uniformly over
the three implementations. -/

theorem popBitsU8_fst (x a : Nat) (h1 : 1 ≤ a) (h2 : a ≤ 8) :
    (popBitsU8 x a).1 = x % 2 ^ a := by
  unfold popBitsU8
  rw [mask16_eq h1 h2, Nat.and_pow_two_sub_one_eq_mod]

theorem popBitsI8_fst (x a : Nat) (h1 : 1 ≤ a) (h2 : a ≤ 8) :
    (popBitsI8 x a).1 = x % 2 ^ a := by
  have hlt : x % 2 ^ a < 2 ^ 8 :=
    lt_of_lt_of_le (Nat.mod_lt x (Nat.two_pow_pos a))
      (Nat.pow_le_pow_right (by norm_num) h2)
  unfold popBitsI8
  rw [mask16_eq h1 h2, Nat.and_pow_two_sub_one_eq_mod]
  exact Nat.mod_eq_of_lt hlt

theorem popBitsWide_fst {w : Nat} {s : Bool} (x a : Nat) (h1 : 1 ≤ a) (h2 : a ≤ 8) :
    (popBitsWide w s x a).1 = x % 2 ^ a := by
  have hlt : x % 2 ^ a < 2 ^ 8 :=
    lt_of_lt_of_le (Nat.mod_lt x (Nat.two_pow_pos a))
      (Nat.pow_le_pow_right (by norm_num) h2)
  simp only [popBitsWide]
  rw [mask_eq h1 h2, Nat.and_pow_two_sub_one_eq_mod]
  exact Nat.mod_eq_of_lt hlt

theorem popBits_fst (w : Nat) (s : Bool) (x a : Nat) (h1 : 1 ≤ a) (h2 : a ≤ 8) :
    (popBits w s x a).1 = x % 2 ^ a := by
  unfold popBits
  by_cases hw : w = 8
  · cases s <;> simp only [hw, if_pos rfl, if_neg, cond_true, cond_false]
    · exact popBitsU8_fst x a h1 h2
    · exact popBitsI8_fst x a h1 h2
  · rw [if_neg hw]
    exact popBitsWide_fst x a h1 h2

/-!  The remaining buffer after a pop: the macro implementations compute an
exact logical shift; the 8-bit ones agree with it on the meaningful low
bits (all of them for `u8`, the low `8 - amount` for `i8`). -/

theorem popBitsWide_snd {w : Nat} {s : Bool} (x a : Nat) (h1 : 1 ≤ a) (h2 : a ≤ 8)
    (hw : 8 < w) (hx : x < 2 ^ w) : (popBitsWide w s x a).2 = x >>> a := by
  have haw : a < w := by omega
  have hsr : x >>> a < 2 ^ (w - a) := shiftRight_lt_of_lt (by omega) hx
  simp only [popBitsWide]
  rw [not_mask_eq (by omega : a ≤ w), checked_shr, if_pos haw]
  cases s
  · simp only [Bool.false_eq_true, if_neg, Option.getD_some, ite_false]
    rw [Nat.and_pow_two_sub_one_eq_mod]
    exact Nat.mod_eq_of_lt hsr
  · simp only [if_pos, Option.getD_some, ite_true]
    rw [Nat.and_pow_two_sub_one_eq_mod, arith_shr_mod]
    exact Nat.mod_eq_of_lt hsr

theorem popBits_w8_false (x a : Nat) : popBits 8 false x a = popBitsU8 x a := rfl

theorem popBits_w8_true (x a : Nat) : popBits 8 true x a = popBitsI8 x a := rfl

theorem popBits_of_ne_8 {w : Nat} (s : Bool) (x a : Nat) (hw : w ≠ 8) :
    popBits w s x a = popBitsWide w s x a := by
  unfold popBits
  rw [if_neg hw]

theorem popBitsU8_snd_eq (x a : Nat) :
    (popBitsU8 x a).2 = if a < 8 then x >>> a else 0 := by
  simp only [popBitsU8, checked_shr]
  split <;> simp

theorem popBitsI8_snd_eq (x a : Nat) :
    (popBitsI8 x a).2 = if a < 8 then arith_shr 8 x a else 0 := by
  simp only [popBitsI8, checked_shr]
  split <;> simp

theorem shiftRight_le_self (x a : Nat) : x >>> a ≤ x := by
  rw [Nat.shiftRight_eq_div_pow]
  exact Nat.div_le_self _ _

theorem popBits_snd_lt {w : Nat} {s : Bool} (x a : Nat) (h1 : 1 ≤ a) (h2 : a ≤ 8)
    (hw : 8 ≤ w) (hx : x < 2 ^ w) : (popBits w s x a).2 < 2 ^ w := by
  by_cases hw8 : w = 8
  · subst hw8
    cases s
    · rw [popBits_w8_false, popBitsU8_snd_eq]
      split
      · exact lt_of_le_of_lt (shiftRight_le_self x a) hx
      · exact Nat.two_pow_pos 8
    · rw [popBits_w8_true, popBitsI8_snd_eq]
      split
      · exact arith_shr_lt (by omega) hx
      · exact Nat.two_pow_pos 8
  · rw [popBits_of_ne_8 s x a hw8, popBitsWide_snd x a h1 h2 (by omega) hx]
    exact lt_of_le_of_lt (shiftRight_le_self x a) hx

theorem popBits_snd_mod {w : Nat} {s : Bool} (x a : Nat) (h1 : 1 ≤ a) (h2 : a ≤ 8)
    (hw : 8 ≤ w) (hx : x < 2 ^ w) :
    (popBits w s x a).2 % 2 ^ (w - a) = (x >>> a) % 2 ^ (w - a) := by
  by_cases hw8 : w = 8
  · subst hw8
    by_cases ha8 : a < 8
    · cases s
      · rw [popBits_w8_false, popBitsU8_snd_eq, if_pos ha8]
      · rw [popBits_w8_true, popBitsI8_snd_eq, if_pos ha8]
        exact arith_shr_mod
    · have ha : a = 8 := by omega
      subst ha
      cases s
      · rw [popBits_w8_false, popBitsU8_snd_eq, if_neg ha8]
        omega
      · rw [popBits_w8_true, popBitsI8_snd_eq, if_neg ha8]
        omega
  · rw [popBits_of_ne_8 s x a hw8, popBitsWide_snd x a h1 h2 (by omega) hx]

/-!  Popping a sequence of amounts reconstructs the low bits of the buffer. -/

theorem popConcat_eq {w : Nat} {s : Bool} (hw : 8 ≤ w) :
    ∀ (cs : List Nat) (x : Nat), (∀ c ∈ cs, 1 ≤ c ∧ c ≤ 8) → cs.sum ≤ w →
      x < 2 ^ w → popConcat (⟨x⟩ : PopBuffer w s) cs = x % 2 ^ cs.sum := by
  intro cs
  induction cs with
  | nil =>
    intro x _ _ _
    simp [popConcat]
    omega
  | cons c cs ih =>
    intro x hcs hsum hx
    have hc := hcs c (List.mem_cons_self c cs)
    have hrest : ∀ c ∈ cs, 1 ≤ c ∧ c ≤ 8 := fun c h => hcs c (List.mem_cons_of_mem _ h)
    have hsums : c + cs.sum ≤ w := by
      rw [List.sum_cons] at hsum
      omega
    have hx' : (popBits w s x c).2 < 2 ^ w := popBits_snd_lt x c hc.1 hc.2 hw hx
    have hmod : (popBits w s x c).2 % 2 ^ (w - c) = (x >>> c) % 2 ^ (w - c) :=
      popBits_snd_mod x c hc.1 hc.2 hw hx
    have hdvd : (2 : Nat) ^ cs.sum ∣ 2 ^ (w - c) := pow_dvd_pow 2 (by omega)
    have hlow : (popBits w s x c).2 % 2 ^ cs.sum = (x >>> c) % 2 ^ cs.sum := by
      rw [← Nat.mod_mod_of_dvd _ hdvd, hmod, Nat.mod_mod_of_dvd _ hdvd]
    show (popBits w s x c).1 + 2 ^ c * popConcat (⟨(popBits w s x c).2⟩ : PopBuffer w s) cs
        = x % 2 ^ (c :: cs).sum
    rw [popBits_fst w s x c hc.1 hc.2, ih _ hrest (by omega) hx', hlow,
      Nat.shiftRight_eq_div_pow, List.sum_cons, pow_add, Nat.mod_mul]

/-!  Pushing a single in-range chunk onto a non-overflowing buffer. -/

theorem pushBits_eq_of_lt (w x a b : Nat) (h1 : 1 ≤ a) (h2 : a ≤ 8) (haw : a < w) :
    pushBits w x a b = (x * 2 ^ a + b % 2 ^ a) % 2 ^ w := by
  have hsplit : 2 ^ (w - a) * 2 ^ a = 2 ^ w := pow_sub_mul_pow w a (by omega)
  have hmodlt : x % 2 ^ (w - a) < 2 ^ (w - a) := Nat.mod_lt x (Nat.two_pow_pos _)
  have hblt : b % 2 ^ a < 2 ^ a := Nat.mod_lt b (Nat.two_pow_pos a)
  have hshl : wrapping_shl w x a = x % 2 ^ (w - a) * 2 ^ a := by
    unfold wrapping_shl
    rw [Nat.mod_eq_of_lt haw, Nat.shiftLeft_eq, ← hsplit, Nat.mul_mod_mul_right]
  have hor : x % 2 ^ (w - a) * 2 ^ a ||| b % 2 ^ a
      = x % 2 ^ (w - a) * 2 ^ a + b % 2 ^ a := by
    rw [mul_comm (x % 2 ^ (w - a)) (2 ^ a)]
    exact (Nat.mul_add_lt_is_or hblt _).symm
  have hlt : x % 2 ^ (w - a) * 2 ^ a + b % 2 ^ a < 2 ^ w := by
    calc x % 2 ^ (w - a) * 2 ^ a + b % 2 ^ a
        < x % 2 ^ (w - a) * 2 ^ a + 2 ^ a := by omega
      _ = (x % 2 ^ (w - a) + 1) * 2 ^ a := by ring
      _ ≤ 2 ^ (w - a) * 2 ^ a := Nat.mul_le_mul_right _ (by omega)
      _ = 2 ^ w := hsplit
  have hbw : b % 2 ^ a < 2 ^ w :=
    lt_of_lt_of_le hblt (Nat.pow_le_pow_right (by norm_num) (by omega))
  have hxa : x * 2 ^ a % 2 ^ w = x % 2 ^ (w - a) * 2 ^ a := by
    rw [← hsplit, Nat.mul_mod_mul_right]
  simp only [pushBits]
  rw [mask_eq h1 h2, Nat.and_pow_two_sub_one_eq_mod, hshl, hor]
  conv_rhs => rw [Nat.add_mod]
  rw [hxa, Nat.mod_eq_of_lt hbw, Nat.mod_eq_of_lt hlt]

/-- A full-width push on the 8-bit buffers: `wrapping_shl` reduces the
shift count modulo 8, so the old content is kept, not shifted out. -/
theorem pushBits_eq_of_eq (w x a b : Nat) (h1 : 1 ≤ a) (h2 : a ≤ 8) (haw : a = w) :
    pushBits w x a b = x % 2 ^ w ||| b % 2 ^ a := by
  simp only [pushBits, wrapping_shl]
  rw [mask_eq h1 h2, Nat.and_pow_two_sub_one_eq_mod, haw, Nat.mod_self,
    Nat.shiftLeft_zero]

/-!  Pushing a sequence of in-range chunks accumulates their concatenation,
as long as the total never overflows the width. -/

theorem chunksVal_lt : ∀ (ps : List (Nat × Nat)), (∀ p ∈ ps, p.2 < 2 ^ p.1) →
    chunksVal ps < 2 ^ sumAmounts ps := by
  intro ps
  induction ps with
  | nil =>
    intro _
    simp [chunksVal, sumAmounts]
  | cons p rest ih =>
    intro hps
    obtain ⟨a, b⟩ := p
    have hb : b < 2 ^ a := hps (a, b) (List.mem_cons_self _ _)
    have hcv : chunksVal rest < 2 ^ sumAmounts rest :=
      ih (fun p h => hps p (List.mem_cons_of_mem _ h))
    show b * 2 ^ sumAmounts rest + chunksVal rest < 2 ^ (a + sumAmounts rest)
    calc b * 2 ^ sumAmounts rest + chunksVal rest
        < b * 2 ^ sumAmounts rest + 2 ^ sumAmounts rest := by omega
      _ = (b + 1) * 2 ^ sumAmounts rest := by ring
      _ ≤ 2 ^ a * 2 ^ sumAmounts rest := Nat.mul_le_mul_right _ (by omega)
      _ = 2 ^ (a + sumAmounts rest) := (pow_add 2 a (sumAmounts rest)).symm

theorem pushSeq_into_bytes {w : Nat} (hw : 8 ≤ w) :
    ∀ (ps : List (Nat × Nat)) (x : Nat),
      (∀ p ∈ ps, 1 ≤ p.1 ∧ p.1 ≤ 8 ∧ p.2 < 2 ^ p.1) →
      x * 2 ^ sumAmounts ps + chunksVal ps < 2 ^ w →
      (pushSeq (⟨x⟩ : PushBuffer w) ps).into_bytes
        = x * 2 ^ sumAmounts ps + chunksVal ps := by
  intro ps
  induction ps with
  | nil =>
    intro x _ _
    simp [pushSeq, PushBuffer.into_bytes, sumAmounts, chunksVal]
  | cons p rest ih =>
    obtain ⟨a, b⟩ := p
    intro x hps hbound
    obtain ⟨ha1, ha2, hb⟩ := hps (a, b) (List.mem_cons_self _ _)
    have hrest : ∀ p ∈ rest, 1 ≤ p.1 ∧ p.1 ≤ 8 ∧ p.2 < 2 ^ p.1 :=
      fun p h => hps p (List.mem_cons_of_mem _ h)
    have hsa : sumAmounts ((a, b) :: rest) = a + sumAmounts rest := rfl
    have hcv : chunksVal ((a, b) :: rest) = b * 2 ^ sumAmounts rest + chunksVal rest := rfl
    have hring : x * 2 ^ (a + sumAmounts rest) + (b * 2 ^ sumAmounts rest + chunksVal rest)
        = (x * 2 ^ a + b) * 2 ^ sumAmounts rest + chunksVal rest := by
      rw [pow_add]
      ring
    have hbound' : (x * 2 ^ a + b) * 2 ^ sumAmounts rest + chunksVal rest < 2 ^ w := by
      rw [hsa, hcv, hring] at hbound
      exact hbound
    have hle : x * 2 ^ a + b ≤ (x * 2 ^ a + b) * 2 ^ sumAmounts rest :=
      Nat.le_mul_of_pos_right _ (Nat.two_pow_pos _)
    have hstep : pushBits w x a b = x * 2 ^ a + b := by
      by_cases haw : a < w
      · rw [pushBits_eq_of_lt w x a b ha1 ha2 haw, Nat.mod_eq_of_lt hb,
          Nat.mod_eq_of_lt (by omega)]
      · have haw' : a = w := by omega
        have hw8 : w = 8 := by omega
        have hx0 : x = 0 := by
          rcases Nat.eq_zero_or_pos x with h0 | hpos
          · exact h0
          · exfalso
            have h256 : 2 ^ w ≤ 2 ^ (a + sumAmounts rest) :=
              Nat.pow_le_pow_right (by norm_num) (by omega)
            have := Nat.le_mul_of_pos_left (2 ^ (a + sumAmounts rest)) hpos
            rw [hsa] at hbound
            omega
        rw [pushBits_eq_of_eq w x a b ha1 ha2 haw', Nat.mod_eq_of_lt hb, hx0]
        simp
    show (pushSeq ((⟨x⟩ : PushBuffer w).push_bits a b) rest).into_bytes = _
    rw [PushBuffer.push_bits]
    show (pushSeq (⟨pushBits w x a b⟩ : PushBuffer w) rest).into_bytes = _
    rw [hstep, ih (x * 2 ^ a + b) hrest hbound', hsa, hcv, hring]

/-- Reference pop for the 16-bit-and-wider buffers, following the claimed
specification rather than the macro's code: reinterpret the buffer as
unsigned (the bit pattern itself in this embedding), return its low
`amount` bits, and logically shift it right by `amount`. -/
def popBitsRef (x a : Nat) : Nat × Nat :=
  (x % 2 ^ a, x >>> a)

/-- Claim C1 (code bug): the claim fails on the `i8` implementation.
Popping 1 bit from the `i8` buffer holding bit pattern `0xFF` (value `-1`)
leaves the buffer at `0xFF`: `checked_shr` on `i8` is an arithmetic shift
and, unlike the `impl_pop_bits!` macro, the hand-written `i8` impl never
clears the sign-extended top bits, so the topmost `amount` bits of the
remaining buffer are not zero. -/
theorem pop_bits_i8_sign_extends :
    (popBits 8 true 255 1).2 = 255 ∧ (popBits 8 true 255 1).2 / 2 ^ 7 = 1 := by
  decide

/-- Claim C2 (code bug): popped set bits plus remaining set bits are not
conserved for the `i8` buffer.  Popping 4 bits from bit pattern `0xFF`
(value `-1`) returns a byte with 4 set bits while the sign-extending shift
leaves the buffer at `0xFF` with 8 set bits: 4 + 8 ≠ 8, exactly the
equation of the implementation's own `debug_assert_eq!`. -/
theorem pop_bits_i8_ones_not_conserved :
    count_ones (popBits 8 true 255 4).1 + count_ones (popBits 8 true 255 4).2
      ≠ count_ones 255 := by
  decide

/-- Claim C3: pushing any valid chunking of a bit sequence into a zeroed
push buffer of width at least 8 and popping the same total number of bits
in any valid chunking from a pop buffer built from `into_bytes` returns
exactly the pushed sequence (as the concatenated value of its chunks). -/
theorem push_pop_roundtrip {w : Nat} {s : Bool} (ps : List (Nat × Nat))
    (cs : List Nat) (hw : 8 ≤ w)
    (hps : ∀ p ∈ ps, 1 ≤ p.1 ∧ p.1 ≤ 8 ∧ p.2 < 2 ^ p.1)
    (hcs : ∀ c ∈ cs, 1 ≤ c ∧ c ≤ 8)
    (hlen : cs.sum = sumAmounts ps)
    (htot : sumAmounts ps ≤ w) :
    popConcat
        (PopBuffer.from_bytes w s ((pushSeq (PushBuffer.default w) ps).into_bytes))
        cs
      = chunksVal ps := by
  have hcv : chunksVal ps < 2 ^ sumAmounts ps :=
    chunksVal_lt ps (fun p hp => (hps p hp).2.2)
  have hcw : chunksVal ps < 2 ^ w :=
    lt_of_lt_of_le hcv (Nat.pow_le_pow_right (by norm_num) htot)
  have hpush : (pushSeq (PushBuffer.default w) ps).into_bytes = chunksVal ps := by
    have h := pushSeq_into_bytes hw ps 0 hps (by simpa using hcw)
    simpa [PushBuffer.default] using h
  rw [hpush, PopBuffer.from_bytes,
    popConcat_eq hw cs (chunksVal ps) hcs (by omega) hcw, hlen,
    Nat.mod_eq_of_lt hcv]

/-- Claim C3 witness: width 8 signed, push chunks (3, 0b110) then
(5, 0b11010), pop in chunks of 4 and 4; the concatenation is the pushed
value 0b11011010 = 218. -/
theorem push_pop_roundtrip_witness :
    popConcat
        (PopBuffer.from_bytes 8 true
          ((pushSeq (PushBuffer.default 8) [(3, 6), (5, 26)]).into_bytes))
        [4, 4]
      = chunksVal [(3, 6), (5, 26)] :=
  push_pop_roundtrip [(3, 6), (5, 26)] [4, 4] (by decide) (by decide) (by decide)
    (by decide) (by decide)

/-- Claim C4 (counterexample): for the 8-bit buffers a full-width push does
not discard the old content.  With old value 1, `push_bits(8, 0)` yields 1,
not `(1 * 2^8 + 0) mod 2^8 = 0`, because `wrapping_shl` reduces the shift
count `8` modulo the width `8` to a no-op shift. -/
theorem push_bits_full_width_counterexample :
    pushBits 8 1 8 0 ≠ (1 * 2 ^ 8 + 0 % 2 ^ 8) % 2 ^ 8 := by
  decide

/-- Claim C4 (amended): for every width and `amount` in 1..=8 with
`amount` strictly below the width — i.e. all amounts on the widths 16 and
up, and amounts 1..=7 on the 8-bit buffers — `push_bits` sets the buffer
to `(old * 2^amount + (bits mod 2^amount)) mod 2^W`; when `amount` equals
the width (only possible for the 8-bit buffers with `amount = 8`) the
wrapping shift leaves the old content in place and the result is
`old OR (bits mod 2^amount)`. -/
theorem push_bits_effect (w x a b : Nat) (h1 : 1 ≤ a) (h2 : a ≤ 8) :
    (a < w → pushBits w x a b = (x * 2 ^ a + b % 2 ^ a) % 2 ^ w) ∧
    (a = w → pushBits w x a b = x % 2 ^ w ||| b % 2 ^ a) :=
  ⟨fun haw => pushBits_eq_of_lt w x a b h1 h2 haw,
   fun haw => pushBits_eq_of_eq w x a b h1 h2 haw⟩

/-- Claim C4 witness: both branches at concrete inputs — a non-degenerate
shift on `u16` and the wrapping full-width case on `u8`. -/
theorem push_bits_effect_witness :
    pushBits 16 1 8 0 = (1 * 2 ^ 8 + 0 % 2 ^ 8) % 2 ^ 16 ∧
    pushBits 8 1 8 3 = 1 % 2 ^ 8 ||| 3 % 2 ^ 8 :=
  ⟨(push_bits_effect 16 1 8 0 (by decide) (by decide)).1 (by decide),
   (push_bits_effect 8 1 8 3 (by decide) (by decide)).2 rfl⟩

/-- Claim C5: on both 8-bit buffers, popping 8 bits returns the full
original byte and zeroes the buffer; the full-width shift is modelled
total (`checked_shr` returns `none` and the `unwrap_or(0)` fallback
yields 0), so it neither traps nor acts as a no-op. -/
theorem pop_bits_full_width_8 (s : Bool) (x : Nat) (hx : x < 2 ^ 8) :
    popBits 8 s x 8 = (x, 0) := by
  have hand : x &&& 255 = x := by
    have h := Nat.and_pow_two_sub_one_eq_mod x 8
    norm_num at h
    rw [h]
    exact Nat.mod_eq_of_lt hx
  cases s
  · rw [popBits_w8_false]
    unfold popBitsU8
    rw [show wrapping_sub 16 (wrapping_shl 16 1 8) 1 % 2 ^ 8 = 255 from by decide,
      hand]
    rfl
  · rw [popBits_w8_true]
    unfold popBitsI8
    rw [show wrapping_sub 16 (wrapping_shl 16 1 8) 1 % 2 ^ 8 = 255 from by decide,
      hand, Nat.mod_eq_of_lt hx]
    rfl

/-- Claim C5 witness: the signed 8-bit buffer at bit pattern 214. -/
theorem pop_bits_full_width_8_witness : popBits 8 true 214 8 = (214, 0) :=
  pop_bits_full_width_8 true 214 (by decide)

/-- Claim C6: `push_bits` only looks at the low `amount` bits of the
`bits` argument — two arguments agreeing modulo `2^amount` produce the
same buffer, on every width. -/
theorem push_bits_ignores_high_bits (w x a b b' : Nat) (h1 : 1 ≤ a) (h2 : a ≤ 8)
    (h : b % 2 ^ a = b' % 2 ^ a) : pushBits w x a b = pushBits w x a b' := by
  simp only [pushBits]
  rw [mask_eq h1 h2, Nat.and_pow_two_sub_one_eq_mod, Nat.and_pow_two_sub_one_eq_mod, h]

/-- Claim C6 witness: `push_bits(3, 0b11111010)` coincides with
`push_bits(3, 0b00000010)` on a `u16` buffer holding 5. -/
theorem push_bits_ignores_high_bits_witness :
    250 % 2 ^ 3 = 2 % 2 ^ 3 ∧ pushBits 16 5 3 250 = pushBits 16 5 3 2 :=
  ⟨by decide,
   push_bits_ignores_high_bits 16 5 3 250 2 (by decide) (by decide) (by decide)⟩

/-- Claim C7: the documented `u16` scenario: starting from the default
buffer, `push_bits(4, 0b1010)` gives internal value `0b1010`,
`push_bits(4, 0b0011)` then gives `0b1010_0011`, and `into_bytes` returns
`0xA3`. -/
theorem push_buffer_u16_example :
    ((PushBuffer.default 16).push_bits 4 10).bytes = 10 ∧
    (((PushBuffer.default 16).push_bits 4 10).push_bits 4 3).bytes = 163 ∧
    (((PushBuffer.default 16).push_bits 4 10).push_bits 4 3).into_bytes = 0xA3 := by
  decide

/-- Claim C8: the byte returned by `pop_bits` depends only on the low
`amount` bits of the buffer, and its bits above position `amount - 1` are
zero, on every width and signedness. -/
theorem pop_bits_depends_on_low_bits (w : Nat) (s : Bool) (x y a : Nat)
    (h1 : 1 ≤ a) (h2 : a ≤ 8) (h : x % 2 ^ a = y % 2 ^ a) :
    (popBits w s x a).1 = (popBits w s y a).1 ∧ (popBits w s x a).1 < 2 ^ a := by
  rw [popBits_fst w s x a h1 h2, popBits_fst w s y a h1 h2]
  exact ⟨h, Nat.mod_lt x (Nat.two_pow_pos a)⟩

/-- Claim C8 witness: an `i32` buffer at 1000003 and one at 3 agree on
their low 2 bits and pop the same byte 3 < 4. -/
theorem pop_bits_depends_on_low_bits_witness :
    (popBits 32 true 1000003 2).1 = (popBits 32 true 3 2).1 ∧
    (popBits 32 true 1000003 2).1 < 2 ^ 2 :=
  pop_bits_depends_on_low_bits 32 true 1000003 3 2 (by decide) (by decide) (by decide)

/-- Claim C9: for widths of 16 bits and more and any `amount` in 1..=8,
the `checked_shr` inside `pop_bits` always succeeds (`amount` is strictly
below the width), so the `unwrap_or(0)` fallback is unreachable. -/
theorem checked_shr_never_fails (w : Nat) (s : Bool) (x a : Nat)
    (hw : 16 ≤ w) (h1 : 1 ≤ a) (h2 : a ≤ 8) :
    a < w ∧ checked_shr w s x a
      = some (if s then arith_shr w x a else x >>> a) := by
  have haw : a < w := by omega
  exact ⟨haw, by unfold checked_shr; rw [if_pos haw]⟩

/-- Claim C9 witness: `u16` at shift 8. -/
theorem checked_shr_never_fails_witness :
    8 < 16 ∧ checked_shr 16 false 7 8
      = some (if false then arith_shr 16 7 8 else 7 >>> 8) :=
  checked_shr_never_fails 16 false 7 8 (by decide) (by decide) (by decide)

/-- Claim C10: on every width of 16 bits or more, signed or unsigned, the
macro-generated `pop_bits` (checked arithmetic-or-logical shift plus
explicit clearing of the top `amount` bits) agrees extensionally with the
reference implementation that takes the low `amount` bits and performs a
logical right shift on the unsigned reinterpretation. -/
theorem pop_bits_wide_refines_reference (w : Nat) (s : Bool) (x a : Nat)
    (hw : 16 ≤ w) (h1 : 1 ≤ a) (h2 : a ≤ 8) (hx : x < 2 ^ w) :
    popBitsWide w s x a = popBitsRef x a := by
  apply Prod.ext
  · rw [popBitsWide_fst x a h1 h2]
    rfl
  · rw [popBitsWide_snd x a h1 h2 (by omega) hx]
    rfl

/-- Claim C10 witness: `i16` at bit pattern 40000 (negative value),
popping 3 bits. -/
theorem pop_bits_wide_refines_reference_witness :
    popBitsWide 16 true 40000 3 = popBitsRef 40000 3 :=
  pop_bits_wide_refines_reference 16 true 40000 3 (by decide) (by decide) (by decide)
    (by decide)

end PushPop
